import Mathlib

/-!
Verification of the pm-prophet forecasting engine (`src/pmprophet/model.py`)
against its natural-language specification.

The embedding below translates the deterministic parts of the program:
timestamps are rationals (a pandas timestamp is a count of seconds since
1970-01-01, here taken at whatever unit a theorem fixes), numeric data is ℚ
(or ℝ where the source computes trigonometric values), and the posterior
"trace" matrices are entry functions `draw → position → value`.
-/

namespace PMProphet

/-! ## Changepoint Selector

Embeds line 173 of `model.py`:
`s = [self.data.ix[(self.data['ds'] - i).abs().argsort()[:1]].index[0] for i in self.changepoints]`.
The constructor sets `self.data.index = range(len(self.data))`, so the row
label extracted by `.ix[...].index[0]` is the positional index itself:
the first element of the argsort of the absolute differences.
`argsort` is modelled as an insertion sort of the positions by key.  This
pins down which position heads the result when several are equidistant;
numpy's default `kind='quicksort'` argsort gives no such guarantee for
ties, so only uses where the minimiser is unique (as in the end-to-end
scenario below, whose changepoint day 50 lies on the grid) are faithful to
the program. -/

/-- Sort of positions `l` by the key function (model of `argsort`; the
order of equal keys is this model's choice, not the program's). -/
def argsortKey (key : ℕ → ℚ) (l : List ℕ) : List ℕ :=
  List.insertionSort (fun i j => key i ≤ key j) l

/-- `(self.data['ds'] - c).abs().argsort()[:1]` followed by `.index[0]`. -/
def nearestIdx (ds : List ℚ) (c : ℚ) : ℕ :=
  (argsortKey (fun i => |ds.getD i 0 - c|) (List.range ds.length)).headD 0

/-- The list `s` of anchored changepoint indices (line 173). -/
def changepointIndices (ds : List ℚ) (cps : List ℚ) : List ℕ :=
  cps.map (nearestIdx ds)

/-! ## Growth Function

Embeds `fit_growth` (lines 171-195).  In posterior mode `x` is the
`len(data) × draws` matrix whose every column is `arange(len(data))`, `g` is
the vector of growth draws and `d j i` is entry `[j, i]` of the changepoint
offset trace.  Matrices are entry functions `position → draw → ℚ`.
When `s` is non-empty the code REPLACES `output = x * g` by the sum over
`i in range(len(s) + 1)` of `local_growth * local_x * local_cond`, where all
three factors are the literal `0` for `i = 0` (the zero scalar is appended as
`np.zeros(x.shape[1])` in posterior mode; either way the summand is zero). -/

/-- `fit_growth(prior=False)`: posterior mode. -/
def fitGrowthPost (ds cps : List ℚ) (g : ℕ → ℚ) (d : ℕ → ℕ → ℚ) :
    ℕ → ℕ → ℚ :=
  let s := changepointIndices ds cps
  let x : ℕ → ℕ → ℚ := fun n _ => (n : ℚ)
  if s.isEmpty then fun n j => x n j * g j
  else fun n j =>
    ((List.range (s.length + 1)).map (fun i =>
      if i = 0 then 0
      else (g j + d j (i - 1)) * (x n j - ((s.getD (i - 1) 0 : ℕ) : ℚ)) *
        (if ((s.getD (i - 1) 0 : ℕ) : ℚ) < x n j then 1 else 0))).sum

/-- `fit_growth(prior=True)`: prior mode, `g` and the offsets `d i` scalar,
`x = arange(len(data))`, output a vector over the series index. -/
def fitGrowthPrior (ds cps : List ℚ) (g : ℚ) (d : ℕ → ℚ) : ℕ → ℚ :=
  let s := changepointIndices ds cps
  let x : ℕ → ℚ := fun n => (n : ℚ)
  if s.isEmpty then fun n => x n * g
  else fun n =>
    ((List.range (s.length + 1)).map (fun i =>
      if i = 0 then 0
      else (g + d (i - 1)) * (x n - ((s.getD (i - 1) 0 : ℕ) : ℚ)) *
        (if ((s.getD (i - 1) 0 : ℕ) : ℚ) < x n then 1 else 0))).sum

/-- The forecast axis of the end-to-end scenario of §8 of the spec: a 100-day
observation series extended by 10 forecast days, with daily timestamps
numbered in days, exactly the `new_df['ds']` column that `predict` hands to
the derived model before calling `fit_growth(prior=False)`. -/
def scenarioDs : List ℚ := (List.range 110).map (fun n => (n : ℚ))

/-! ## Forecast Synthesizer

Embeds the tail of `predict` (lines 303-367).  `np.percentile(a, q, axis=-1)`
with the default linear interpolation is modelled by `percentile` applied to
each row; `math.ceil`/`math.floor` are `Int.ceil`/`Int.floor`. -/

/-- Linear interpolation of a sorted sample list `s` at fractional
position `p`: the core of `np.percentile` (position `p = q/100 * (n-1)`,
value `v[⌊p⌋] + (p - ⌊p⌋) * (v[⌊p⌋+1] - v[⌊p⌋])`, clamped to `v[n-1]` at
the top end). -/
def interpAt (s : List ℚ) (p : ℚ) : ℚ :=
  match s[(⌊p⌋).toNat]?, s[(⌊p⌋).toNat + 1]? with
  | some a, some b => a + (p - ((⌊p⌋).toNat : ℚ)) * (b - a)
  | some a, none => a
  | none, _ => 0

/-- `np.percentile(xs, q)`: sort ascending, then linearly interpolate at
position `q/100 * (len - 1)`. -/
def percentile (xs : List ℚ) (q : ℚ) : ℚ :=
  let s := List.insertionSort (fun a b : ℚ => a ≤ b) xs
  interpAt s (q * ((s.length : ℚ) - 1) / 100)

/-- One output row (`y_hat`, `y_high`, `y_low`) of `predict` for one axis
position (lines 357-365): the point estimate is the 50th percentile of the
noiseless samples `row`; the bounds are the `ceil(100 - 100*alpha/2)`-th
and `floor(100*alpha/2)`-th percentiles of the noised samples
`row + noise` (`np.random.normal(0, sigma_trace)` draws one noise value
per posterior draw, broadcast over axis positions). -/
def predictRow (row noise : List ℚ) (alpha : ℚ) : ℚ × ℚ × ℚ :=
  let noised := List.zipWith (fun a b => a + b) row noise
  (percentile row 50,
   percentile noised ((⌈100 - 100 * alpha / 2⌉ : ℤ) : ℚ),
   percentile noised ((⌊100 * alpha / 2⌋ : ℤ) : ℚ))

/-- The output frame of `predict`: `yhat` is the noiseless posterior
mean-sample matrix (trend + seasonality + intercept), one row per axis
position, one column per draw. -/
def predictFrame (yhat : List (List ℚ)) (noise : List ℚ) (alpha : ℚ) :
    List (ℚ × ℚ × ℚ) :=
  yhat.map (fun row => predictRow row noise alpha)

/-- `self.data['ds'].max()` (line 303). -/
def dsMax : List ℚ → ℚ
  | [] => 0
  | x :: xs => xs.foldl max x

/-- Lines 304-309: `pd.date_range(start=last_date, periods=n+1, freq)`
(an arithmetic progression from the last observed date), then
`dates[dates > last_date]` and `dates[:forecasting_periods]`. -/
def futureDates (last : ℚ) (n : ℕ) (step : ℚ) : List ℚ :=
  (((List.range (n + 1)).map (fun (k : ℕ) => last + (k : ℚ) * step)).filter
    (fun d => decide (last < d))).take n

/-- The `ds` column of `new_df` (lines 313-318): history prefixed when
`include_history`, else the future dates alone. -/
def predictAxis (ds : List ℚ) (n : ℕ) (step : ℚ) (includeHistory : Bool) :
    List ℚ :=
  if includeHistory then ds ++ futureDates (dsMax ds) n step
  else futureDates (dsMax ds) n step

/-! ## Constructor

Embeds `__init__` (lines 29-60): the validation order (changepoint
conflict, then the `y` column, the `ds` column and the model name) and the
automatic changepoint grid
`pd.date_range(min(ds), max(ds), periods=n+2)[1:-1]`.  Python truthiness of
the `changepoints` list and of the `n_changepoints` count becomes
non-emptiness / non-zeroness. -/

/-- `self.data['ds'].min()`. -/
def dsMin : List ℚ → ℚ
  | [] => 0
  | x :: xs => xs.foldl min x

/-- The state of a successfully constructed model that the claims need. -/
structure ModelCfg where
  dsVals : List ℚ
  growth : Bool
  intercept : Bool
  name : String
  changepoints : List ℚ

/-- Lines 55-60: `n` evenly spaced changepoints strictly between the
observed minimum and maximum (`periods = n + 2`, first and last excluded). -/
def autoChangepoints (dsVals : List ℚ) (n : ℕ) : List ℚ :=
  (List.range' 1 n).map (fun (k : ℕ) =>
    dsMin dsVals + (k : ℚ) * (dsMax dsVals - dsMin dsVals) / ((n : ℚ) + 1))

/-- `PMProphet.__init__`: either raises (`error`) or yields a model. -/
def pmInit (dataCols : List String) (dsVals : List ℚ) (growth intercept : Bool)
    (name : Option String) (changepoints : List ℚ) (nChangepoints : ℕ) :
    Except String ModelCfg :=
  if changepoints ≠ [] ∧ nChangepoints ≠ 0 then
    .error "You can either specify a list of changepoint dates of a number of them"
  else if "y" ∉ dataCols then
    .error "Target variable should be called y in the data dataframe"
  else if "ds" ∉ dataCols then
    .error "Time variable should be called ds in the data dataframe"
  else
    match name with
    | none => .error "Specify a model name through the name parameter"
    | some nm =>
        .ok { dsVals := dsVals, growth := growth, intercept := intercept,
              name := nm,
              changepoints :=
                if nChangepoints ≠ 0 then autoChangepoints dsVals nChangepoints
                else changepoints }

/-! ## Fourier Feature Generator

Embeds `fourier_series` (lines 62-89).  A pandas timestamp is its count of
seconds since 1970-01-01 (so the subtraction of `datetime(1970, 1, 1)`
subtracts zero), and
`t = (dates - datetime(1970,1,1)).dt.total_seconds() / (3600 * 24.)` keeps
fractional days.  The matrix is represented by its list of columns, in the
order of the `np.column_stack` argument: the comprehension
`[fun(2.0*(i+1)*pi*t/period) for i in range(order) for fun in (sin, cos)]`. -/

/-- Elapsed days since the epoch of a timestamp of `d` seconds. -/
def elapsedDays (d : ℚ) : ℚ := (d - 0) / (3600 * 24)

/-- `fourier_series(dates, period, series_order)` as its list of columns. -/
noncomputable def fourier_series (dates : List ℚ) (period : ℚ)
    (seriesOrder : ℕ) : List (List ℝ) :=
  (List.range seriesOrder).flatMap (fun i =>
    [Real.sin, Real.cos].map (fun f =>
      dates.map (fun d =>
        f (2 * ((i : ℝ) + 1) * Real.pi * ((elapsedDays d : ℚ) : ℝ) /
          ((period : ℚ) : ℝ)))))

/-! ## Seasonality feature naming

Embeds the naming convention of `add_seasonality` (line 104:
`'f_%s_%s' % (seasonality, order_idx)`) and its inverse in `predict`
(lines 335-343: `column[2:].split('_')`, `int(order)`, `float(period)`,
grouping in an insertion-ordered dict, then `max(orders) + 1`).  Strings
are lists of characters; `str`/`int`/`float` on numbers are `natRepr`,
`parseNat` and `pyFloat` (the latter restricted to the decimal shapes
`str` produces, which is all the round-trip needs).  A malformed
`f_`-prefixed name raises in the source (spec §7); in this model the fold
skips it — no such name arises from `add_seasonality`. -/

/-- The decimal digit characters. -/
def digitChar : ℕ → Char
  | 0 => '0' | 1 => '1' | 2 => '2' | 3 => '3' | 4 => '4'
  | 5 => '5' | 6 => '6' | 7 => '7' | 8 => '8' | 9 => '9'
  | _ => '*'

/-- Numeric value of a digit character. -/
def digitVal (c : Char) : ℕ := c.toNat - 48

/-- Is this one of '0'..'9'? -/
def isDigitChar (c : Char) : Bool := 48 ≤ c.toNat && c.toNat ≤ 57

/-- `str(n)` for a natural number. -/
def natRepr (n : ℕ) : List Char :=
  if n = 0 then ['0'] else (Nat.digits 10 n).reverse.map digitChar

/-- `int(s)`: a non-empty all-digit string parsed in base 10. -/
def parseNat (cs : List Char) : Option ℕ :=
  if cs ≠ [] ∧ cs.all isDigitChar then
    some (cs.foldl (fun a c => a * 10 + digitVal c) 0)
  else none

/-- `s.split(sep)` for a one-character separator. -/
def splitOnChar (sep : Char) : List Char → List (List Char)
  | [] => [[]]
  | c :: rest =>
      match splitOnChar sep rest with
      | [] => [[c]]
      | g :: gs => if c = sep then [] :: g :: gs else (c :: g) :: gs

/-- `float(s)` on the decimal strings produced by `str` on a number:
an integer part, optionally followed by a dot and a fractional part. -/
def pyFloat (cs : List Char) : Option ℚ :=
  match splitOnChar '.' cs with
  | [a] => (parseNat a).map (fun v => (v : ℚ))
  | [a, b] =>
      match parseNat a, parseNat b with
      | some v, some f => some ((v : ℚ) + (f : ℚ) / (10 : ℚ) ^ b.length)
      | _, _ => none
  | _ => none

/-- `'f_%s_%s' % (p, idx)` where `p` is the rendered period string. -/
def seasonColName (p : List Char) (idx : ℕ) : List Char :=
  'f' :: '_' :: (p ++ '_' :: natRepr idx)

/-- `add_seasonality` appends one column name per Fourier order
(line 104). -/
def addSeasonalityNames (cols : List (List Char)) (p : List Char) (k : ℕ) :
    List (List Char) :=
  cols ++ (List.range k).map (seasonColName p)

/-- `periods.setdefault(period, []); periods[period].append(order)`: append
the order to the period's group in an insertion-ordered association list. -/
def addOrder (groups : List (List Char × List ℕ)) (p : List Char) (o : ℕ) :
    List (List Char × List ℕ) :=
  match groups with
  | [] => [(p, [o])]
  | (q, os) :: gs => if q = p then (q, os ++ [o]) :: gs else (q, os) :: addOrder gs p o

/-- One iteration of the reconstruction loop of `predict` (lines 336-340). -/
def reconStep (groups : List (List Char × List ℕ)) (c : List Char) :
    List (List Char × List ℕ) :=
  if c.take 2 = ['f', '_'] then
    match splitOnChar '_' (c.drop 2) with
    | [p, o] =>
      match parseNat o with
      | some k => addOrder groups p k
      | none => groups
    | _ => groups
  else groups

/-- The `periods` dict after the loop over `self.data.columns`. -/
def reconstructPeriods (cols : List (List Char)) : List (List Char × List ℕ) :=
  cols.foldl reconStep []

/-- Line 342-343: the `(float(period), max(orders) + 1)` pairs handed to
`add_seasonality` on the derived model. -/
def reconstructedPairs (cols : List (List Char)) : List (Option ℚ × ℕ) :=
  (reconstructPeriods cols).map (fun g => (pyFloat g.1, (g.2.foldl max 0) + 1))

/-! ## Dataframe ownership

`__init__` copies the caller's dataframe (`self.data = data.copy()`,
line 30) before converting `ds` and resetting the index, and the feature
methods (`add_seasonality` lines 104-109, `add_holiday` line 127,
`add_regressor` lines 144-146) assign columns on `self.data` only.
Mutable dataframe objects are modelled by a store (a list of frames) with
indices as references: the constructor allocates a fresh cell holding its
copy, and every add-operation updates the model's own cell in place. -/

/-- A dataframe: the `ds` column, the `y` column and named extra columns
(feature values are reals, since seasonality features are sine/cosine
values). -/
structure DFrame where
  ds : List ℚ
  y : List ℝ
  cols : List (List Char × List ℝ)

instance : Inhabited DFrame := ⟨⟨[], [], []⟩⟩

/-- `self.data['y'].mean()`. -/
noncomputable def meanR (l : List ℝ) : ℝ := l.sum / l.length

/-- `df[name] = vals`: replace the named column or append it. -/
def setColList (name : List Char) (vals : List ℝ) :
    List (List Char × List ℝ) → List (List Char × List ℝ)
  | [] => [(name, vals)]
  | (q, v) :: rest =>
      if q = name then (q, vals) :: rest else (q, v) :: setColList name vals rest

/-- Column assignment on a frame. -/
def dfSetCol (df : DFrame) (name : List Char) (vals : List ℝ) : DFrame :=
  { df with cols := setColList name vals df.cols }

/-- The three feature-adding operations of the model. -/
inductive FeatureOp where
  | seasonality (period : ℚ) (pStr : List Char) (order : ℕ)
  | holiday (name : List Char) (dStart dEnd : ℚ)
  | regressor (name : List Char) (vals : Option (List ℝ))

/-- `add_seasonality` (writes the first `order` Fourier columns),
`add_holiday` (an indicator of `date_start < ds < date_end` scaled by the
mean of `y`), `add_regressor` (stores the values only when a regressor is
passed — `if regressor:`). -/
noncomputable def applyOp (df : DFrame) : FeatureOp → DFrame
  | .seasonality period pStr order =>
      let fs := fourier_series df.ds period order
      (List.range order).foldl (fun acc idx =>
        dfSetCol acc (seasonColName pStr idx) (fs.getD idx [])) df
  | .holiday name dStart dEnd =>
      dfSetCol df name (df.ds.map (fun d =>
        (if dStart < d ∧ d < dEnd then 1 else 0) * meanR df.y))
  | .regressor name vals =>
      match vals with
      | some v => dfSetCol df name v
      | none => df

/-- `self.data = data.copy()` and the subsequent in-place `ds` conversion
and re-indexing (identities on this representation): the caller's frame at
`j` is copied into a fresh store cell, whose index the model keeps. -/
def pmConstructData (store : List DFrame) (j : ℕ) : List DFrame × ℕ :=
  (store ++ [store.getD j default], store.length)

/-- One feature operation applied through the model's reference. -/
noncomputable def applyOpStore (store : List DFrame) (ref : ℕ) (op : FeatureOp) :
    List DFrame :=
  store.set ref (applyOp (store.getD ref default) op)

/-- A sequence of feature operations on the model. -/
noncomputable def runOps (store : List DFrame) (ref : ℕ) (ops : List FeatureOp) :
    List DFrame :=
  ops.foldl (fun st op => applyOpStore st ref op) store

/-! # Theorems -/

/-- C2: with an empty Changepoint Set the Growth Function reduces to the
plain linear trend: `rate * x` in prior mode and `rate[draw] * x` for every
draw in posterior mode, at every series position. -/
theorem growth_empty_changepoints (ds : List ℚ) (gp : ℚ) (dp : ℕ → ℚ)
    (g : ℕ → ℚ) (d : ℕ → ℕ → ℚ) (n j : ℕ) (hn : n < ds.length) :
    fitGrowthPrior ds [] gp dp n = gp * (n : ℚ) ∧
      fitGrowthPost ds [] g d n j = g j * (n : ℚ) := by
  constructor
  · simp [fitGrowthPrior, changepointIndices, mul_comm]
  · simp [fitGrowthPost, changepointIndices, mul_comm]

theorem flatMap_range_two_length {α : Type} (g : ℕ → List α)
    (hg : ∀ j, (g j).length = 2) (k : ℕ) :
    ((List.range k).flatMap g).length = 2 * k := by
  induction k with
  | zero => simp
  | succ m ih =>
    rw [List.range_succ, List.flatMap_append, List.length_append, ih]
    simp [hg]
    omega

theorem flatMap_range_two_getD {α : Type} (g : ℕ → List α) (d : α)
    (hg : ∀ j, (g j).length = 2) (k : ℕ) :
    ∀ i r, i < k → r < 2 →
      ((List.range k).flatMap g).getD (2 * i + r) d = (g i).getD r d := by
  induction k with
  | zero => intro i r h _; omega
  | succ m ih =>
    intro i r hik hr
    rw [List.range_succ, List.flatMap_append]
    rcases Nat.lt_or_ge i m with him | him
    · rw [List.getD_append]
      · exact ih i r him hr
      · rw [flatMap_range_two_length g hg m]
        omega
    · have hi : i = m := by omega
      subst hi
      rw [List.getD_append_right]
      · rw [flatMap_range_two_length g hg i]
        have h2 : 2 * i + r - 2 * i = r := by omega
        rw [h2]
        simp
      · rw [flatMap_range_two_length g hg i]
        omega

/-- C3 amended: the Fourier Feature Generator returns an N×2K column-list
matrix whose columns alternate sine and cosine: column `2i` holds
`sin(2π(i+1)t/P)` and column `2i+1` holds `cos(2π(i+1)t/P)` at every row
`n`, where `t` is the elapsed time of the `n`-th date since 1970-01-01 in
days, computed as total seconds divided by 86400 — fractional days are
preserved, not truncated to whole days. -/
theorem fourier_series_columns (dates : List ℚ) (period : ℚ) (k : ℕ)
    (hk : 1 ≤ k) (i n : ℕ) (hi : i < k) (hn : n < dates.length) :
    (fourier_series dates period k).length = 2 * k ∧
    (∀ c ∈ fourier_series dates period k, c.length = dates.length) ∧
    ((fourier_series dates period k).getD (2 * i) []).getD n 0 =
      Real.sin (2 * ((i : ℝ) + 1) * Real.pi *
        ((elapsedDays (dates.getD n 0) : ℚ) : ℝ) / ((period : ℚ) : ℝ)) ∧
    ((fourier_series dates period k).getD (2 * i + 1) []).getD n 0 =
      Real.cos (2 * ((i : ℝ) + 1) * Real.pi *
        ((elapsedDays (dates.getD n 0) : ℚ) : ℝ) / ((period : ℚ) : ℝ)) := by
  have hg : ∀ j : ℕ, (([Real.sin, Real.cos].map (fun f =>
      dates.map (fun d =>
        f (2 * ((j : ℝ) + 1) * Real.pi * ((elapsedDays d : ℚ) : ℝ) /
          ((period : ℚ) : ℝ))))).length) = 2 := by
    intro j; simp
  refine ⟨?_, ?_, ?_, ?_⟩
  · exact flatMap_range_two_length _ hg k
  · intro c hc
    unfold fourier_series at hc
    obtain ⟨j, hj, hcm⟩ := List.mem_flatMap.mp hc
    simp only [List.mem_map] at hcm
    obtain ⟨f, hf, rfl⟩ := hcm
    simp
  · have h := flatMap_range_two_getD _ ([] : List ℝ) hg k i 0 hi (by omega)
    unfold fourier_series
    rw [show 2 * i + 0 = 2 * i from rfl] at h
    rw [h, List.map_cons, List.map_cons, List.map_nil, List.getD_cons_zero]
    rw [List.getD_eq_getElem?_getD, List.getElem?_eq_getElem (by simpa using hn)]
    simp [List.getElem_map, List.getD_eq_getElem?_getD, List.getElem?_eq_getElem hn]
  · have h := flatMap_range_two_getD _ ([] : List ℝ) hg k i 1 hi (by omega)
    unfold fourier_series
    rw [h, List.map_cons, List.map_cons, List.map_nil]
    rw [show (1:ℕ) = 0 + 1 from rfl, List.getD_cons_succ, List.getD_cons_zero]
    rw [List.getD_eq_getElem?_getD, List.getElem?_eq_getElem (by simpa using hn)]
    simp [List.getElem_map, List.getD_eq_getElem?_getD, List.getElem?_eq_getElem hn]

theorem fourier_series_columns_witness :
    (1 ≤ 1 ∧ 0 < 1 ∧ 0 < ([(0:ℚ)]).length) ∧
      (fourier_series [0] 7 1).length = 2 * 1 :=
  ⟨⟨by decide, by decide, by decide⟩,
    (fourier_series_columns [0] 7 1 (by decide) 0 0 (by decide) (by decide)).1⟩

/-- C3 counterexample: the code does NOT truncate the elapsed time to whole
days.  For a single timestamp of 43200 seconds (noon of 1970-01-01),
period 2 and order 1, the sine entry is `sin(2·1·π·(1/2)/2) = sin(π/2) = 1`,
while the claimed truncation of fractional days would give
`sin(2·1·π·⌊1/2⌋/2) = sin 0 = 0`. -/
theorem fourier_series_no_truncation :
    ((fourier_series [43200] 2 1).getD 0 []).getD 0 0 = Real.sin (Real.pi / 2) ∧
      Real.sin (Real.pi / 2) ≠
        Real.sin (2 * ((0 : ℝ) + 1) * Real.pi *
          ((⌊elapsedDays 43200⌋ : ℤ) : ℝ) / ((2 : ℚ) : ℝ)) := by
  have hel : elapsedDays 43200 = 1/2 := by norm_num [elapsedDays]
  have hfl : ⌊elapsedDays 43200⌋ = 0 := by rw [hel]; norm_num
  constructor
  · unfold fourier_series
    rw [show List.range 1 = [0] from rfl]
    simp only [List.flatMap_cons, List.flatMap_nil,
      List.map_cons, List.map_nil, List.append_nil, List.getD_cons_zero]
    rw [hel]
    congr 1
    push_cast
    ring
  · rw [hfl]
    push_cast
    rw [show (2 * ((0:ℝ) + 1) * Real.pi * 0 / 2) = 0 by ring]
    rw [Real.sin_pi_div_two, Real.sin_zero]
    norm_num

/-- C7: supplying both a non-empty changepoint-date list and a non-zero
changepoint count makes the constructor raise before any model is produced
(the conflict check precedes every other validation), while supplying only
one of the two on otherwise valid input (the `y` and `ds` columns present
and a model name given) succeeds. -/
theorem init_changepoint_conflict (dataCols : List String) (dsVals : List ℚ)
    (growth intercept : Bool) (name : Option String) (cps : List ℚ) (n : ℕ) :
    (cps ≠ [] → n ≠ 0 →
      ∃ e, pmInit dataCols dsVals growth intercept name cps n = .error e) ∧
    ("y" ∈ dataCols → "ds" ∈ dataCols → ∀ nm, name = some nm →
      (∃ m, pmInit dataCols dsVals growth intercept name cps 0 = .ok m) ∧
      (∃ m, pmInit dataCols dsVals growth intercept name [] n = .ok m)) := by
  constructor
  · intro h1 h2
    exact ⟨"You can either specify a list of changepoint dates of a number of them",
      by simp [pmInit, h1, h2]⟩
  · intro hy hds nm hnm
    subst hnm
    constructor
    · exact ⟨⟨dsVals, growth, intercept, nm, cps⟩, by simp [pmInit, hy, hds]⟩
    · exact ⟨⟨dsVals, growth, intercept, nm,
        if n = 0 then [] else autoChangepoints dsVals n⟩, by simp [pmInit, hy, hds]⟩

theorem init_changepoint_conflict_witness :
    (([(5:ℚ)] ≠ [] ∧ (1:ℕ) ≠ 0) ∧ "y" ∈ ["y", "ds"] ∧ "ds" ∈ ["y", "ds"] ∧
        (some "m" : Option String) = some "m") ∧
      (∃ e, pmInit ["y", "ds"] [0, 1] true true (some "m") [5] 1 = .error e) ∧
      (∃ m, pmInit ["y", "ds"] [0, 1] true true (some "m") [5] 0 = .ok m) ∧
      (∃ m, pmInit ["y", "ds"] [0, 1] true true (some "m") [] 1 = .ok m) := by
  refine ⟨⟨⟨by decide, by decide⟩, by decide, by decide, rfl⟩, ?_, ?_, ?_⟩
  · exact (init_changepoint_conflict ["y", "ds"] [0, 1] true true (some "m") [5] 1).1
      (by decide) (by decide)
  · exact ((init_changepoint_conflict ["y", "ds"] [0, 1] true true (some "m") [5] 1).2
      (by decide) (by decide) "m" rfl).1
  · exact ((init_changepoint_conflict ["y", "ds"] [0, 1] true true (some "m") [5] 1).2
      (by decide) (by decide) "m" rfl).2

theorem sorted_getD_le (s : List ℚ) (hs : List.Sorted (fun a b : ℚ => a ≤ b) s)
    (i j : ℕ) (hij : i ≤ j) (hj : j < s.length) : s.getD i 0 ≤ s.getD j 0 := by
  have hi : i < s.length := lt_of_le_of_lt hij hj
  rw [List.getD_eq_getElem?_getD, List.getD_eq_getElem?_getD,
    List.getElem?_eq_getElem hi, List.getElem?_eq_getElem hj]
  rcases eq_or_lt_of_le hij with h | h
  · subst h; simp
  · simpa using hs.rel_get_of_lt (show (⟨i, hi⟩ : Fin s.length) < ⟨j, hj⟩ from h)

theorem interpAt_eq_of_lt (s : List ℚ) (p : ℚ) (h1 : (⌊p⌋).toNat + 1 < s.length) :
    interpAt s p = s.getD (⌊p⌋).toNat 0 +
      (p - ((⌊p⌋).toNat : ℚ)) * (s.getD ((⌊p⌋).toNat + 1) 0 - s.getD (⌊p⌋).toNat 0) := by
  unfold interpAt
  rw [List.getElem?_eq_getElem (by omega : (⌊p⌋).toNat < s.length),
    List.getElem?_eq_getElem h1]
  rw [List.getD_eq_getElem?_getD, List.getD_eq_getElem?_getD,
    List.getElem?_eq_getElem (by omega : (⌊p⌋).toNat < s.length),
    List.getElem?_eq_getElem h1]
  rfl

theorem interpAt_eq_of_last (s : List ℚ) (p : ℚ) (h0 : (⌊p⌋).toNat < s.length)
    (h1 : ¬ (⌊p⌋).toNat + 1 < s.length) :
    interpAt s p = s.getD (⌊p⌋).toNat 0 := by
  unfold interpAt
  rw [List.getElem?_eq_getElem h0,
    List.getElem?_eq_none (by omega : s.length ≤ (⌊p⌋).toNat + 1)]
  rw [List.getD_eq_getElem?_getD, List.getElem?_eq_getElem h0]
  rfl

theorem interpAt_mono (s : List ℚ) (hs : List.Sorted (fun a b : ℚ => a ≤ b) s)
    (p1 p2 : ℚ) (hp0 : 0 ≤ p1) (hp12 : p1 ≤ p2) (hpn : p2 ≤ (s.length : ℚ) - 1) :
    interpAt s p1 ≤ interpAt s p2 := by
  have h0p2 : 0 ≤ p2 := le_trans hp0 hp12
  have hn : 0 < s.length := by
    by_contra h
    have h0 : s.length = 0 := by omega
    rw [h0] at hpn; push_cast at hpn; linarith
  have hfl1 : (((⌊p1⌋).toNat : ℤ)) = ⌊p1⌋ := Int.toNat_of_nonneg (Int.floor_nonneg.mpr hp0)
  have hfl2 : (((⌊p2⌋).toNat : ℤ)) = ⌊p2⌋ := Int.toNat_of_nonneg (Int.floor_nonneg.mpr h0p2)
  have hc1 : (((⌊p1⌋).toNat : ℚ)) = ((⌊p1⌋ : ℤ) : ℚ) := by exact_mod_cast hfl1
  have hc2 : (((⌊p2⌋).toNat : ℚ)) = ((⌊p2⌋ : ℤ) : ℚ) := by exact_mod_cast hfl2
  have hi12 : (⌊p1⌋).toNat ≤ (⌊p2⌋).toNat := by
    have := Int.floor_le_floor hp12
    omega
  have hi2n : (⌊p2⌋).toNat < s.length := by
    have hle : ⌊p2⌋ ≤ (s.length : ℤ) - 1 := by
      have hcast : p2 ≤ (((s.length : ℤ) - 1 : ℤ) : ℚ) := by push_cast; linarith
      have := Int.floor_le_floor hcast
      rwa [Int.floor_intCast] at this
    omega
  have hi1n : (⌊p1⌋).toNat < s.length := lt_of_le_of_lt hi12 hi2n
  have hf1lo : (0:ℚ) ≤ p1 - ((⌊p1⌋).toNat : ℚ) := by
    have h := Int.floor_le p1
    rw [hc1]; linarith
  have hf2lo : (0:ℚ) ≤ p2 - ((⌊p2⌋).toNat : ℚ) := by
    have h := Int.floor_le p2
    rw [hc2]; linarith
  have hf1hi : p1 - ((⌊p1⌋).toNat : ℚ) ≤ 1 := by
    have h := Int.lt_floor_add_one p1
    rw [hc1]; linarith
  rcases Nat.eq_or_lt_of_le hi12 with heq | hlt
  · by_cases hib : (⌊p1⌋).toNat + 1 < s.length
    · rw [interpAt_eq_of_lt s p1 hib, interpAt_eq_of_lt s p2 (by omega), ← heq]
      have hadj : s.getD (⌊p1⌋).toNat 0 ≤ s.getD ((⌊p1⌋).toNat + 1) 0 :=
        sorted_getD_le s hs (⌊p1⌋).toNat ((⌊p1⌋).toNat + 1) (by omega) hib
      nlinarith [hadj, hp12]
    · rw [interpAt_eq_of_last s p1 hi1n hib,
        interpAt_eq_of_last s p2 hi2n (by omega), ← heq]
  · have hib1 : (⌊p1⌋).toNat + 1 < s.length := by omega
    have step1 : interpAt s p1 ≤ s.getD ((⌊p1⌋).toNat + 1) 0 := by
      rw [interpAt_eq_of_lt s p1 hib1]
      have hadj : s.getD (⌊p1⌋).toNat 0 ≤ s.getD ((⌊p1⌋).toNat + 1) 0 :=
        sorted_getD_le s hs (⌊p1⌋).toNat ((⌊p1⌋).toNat + 1) (by omega) hib1
      nlinarith [hf1lo, hf1hi, hadj]
    have step2 : s.getD ((⌊p1⌋).toNat + 1) 0 ≤ s.getD (⌊p2⌋).toNat 0 :=
      sorted_getD_le s hs ((⌊p1⌋).toNat + 1) (⌊p2⌋).toNat (by omega) hi2n
    have step3 : s.getD (⌊p2⌋).toNat 0 ≤ interpAt s p2 := by
      by_cases hib2 : (⌊p2⌋).toNat + 1 < s.length
      · rw [interpAt_eq_of_lt s p2 hib2]
        have hadj : s.getD (⌊p2⌋).toNat 0 ≤ s.getD ((⌊p2⌋).toNat + 1) 0 :=
          sorted_getD_le s hs (⌊p2⌋).toNat ((⌊p2⌋).toNat + 1) (by omega) hib2
        nlinarith [hf2lo, hadj]
      · rw [interpAt_eq_of_last s p2 hi2n hib2]
    linarith

theorem percentile_mono (xs : List ℚ) (hxs : xs ≠ []) (q1 q2 : ℚ)
    (h0 : 0 ≤ q1) (h12 : q1 ≤ q2) (h100 : q2 ≤ 100) :
    percentile xs q1 ≤ percentile xs q2 := by
  unfold percentile
  have hs := List.sorted_insertionSort (fun a b : ℚ => a ≤ b) xs
  have hlen : (List.insertionSort (fun a b : ℚ => a ≤ b) xs).length = xs.length :=
    (List.perm_insertionSort _ _).length_eq
  have hnn : (0:ℚ) ≤ ((List.insertionSort (fun a b : ℚ => a ≤ b) xs).length : ℚ) - 1 := by
    have h1 : 0 < xs.length := List.length_pos.mpr hxs
    rw [hlen]
    have h2 : (1:ℚ) ≤ (xs.length : ℚ) := by exact_mod_cast h1
    linarith
  apply interpAt_mono _ hs
  · apply div_nonneg _ (by norm_num : (0:ℚ) ≤ 100)
    exact mul_nonneg h0 hnn
  · apply div_le_div_of_nonneg_right ?_ ?_
    all_goals try exact mul_le_mul_of_nonneg_right h12 hnn
    norm_num
  · rw [div_le_iff₀ (by norm_num : (0:ℚ) < 100)]
    nlinarith [hnn]

theorem percentile_nil (q : ℚ) : percentile [] q = 0 := rfl

/-- C5 amended: for every `α ∈ (0,1)` and every axis position the lower
bound is at most the upper bound (the code's fixed assignment of the
`floor(100α/2)`-percentile to `y_low` and the `ceil(100-100α/2)`-percentile
to `y_high` coincides with taking min/max, since percentiles are monotone
in the percentage); the full chain `y_low ≤ y_hat ≤ y_high` additionally
holds whenever the injected noise leaves the samples unchanged (e.g. all
noise draws are zero) — but not in general, since the point estimate comes
from the noiseless samples and the bounds from the noised ones. -/
theorem interval_bounds_ordered (row noise : List ℚ) (alpha : ℚ)
    (ha0 : 0 < alpha) (ha1 : alpha < 1) (hrow : row ≠ []) :
    ((predictRow row noise alpha).2.2 ≤ (predictRow row noise alpha).2.1) ∧
      (List.zipWith (fun a b => a + b) row noise = row →
        (predictRow row noise alpha).2.2 ≤ (predictRow row noise alpha).1 ∧
          (predictRow row noise alpha).1 ≤ (predictRow row noise alpha).2.1) := by
  have hql0 : (0:ℚ) ≤ ((⌊100 * alpha / 2⌋ : ℤ) : ℚ) := by
    have h : (0:ℤ) ≤ ⌊100 * alpha / 2⌋ := Int.floor_nonneg.mpr (by linarith)
    exact_mod_cast h
  have hql50 : ((⌊100 * alpha / 2⌋ : ℤ) : ℚ) ≤ 50 := by
    have h := Int.floor_le (100 * alpha / 2)
    linarith
  have hqh50 : (50:ℚ) ≤ ((⌈100 - 100 * alpha / 2⌉ : ℤ) : ℚ) := by
    have h := Int.le_ceil (100 - 100 * alpha / 2)
    linarith
  have hqh100 : ((⌈100 - 100 * alpha / 2⌉ : ℤ) : ℚ) ≤ 100 := by
    have h : ⌈100 - 100 * alpha / 2⌉ ≤ (100:ℤ) := Int.ceil_le.mpr (by push_cast; linarith)
    exact_mod_cast h
  constructor
  · rcases hnz : List.zipWith (fun a b : ℚ => a + b) row noise with _ | ⟨v, vs⟩
    · simp only [predictRow, hnz, percentile_nil, le_refl]
    · have hne : List.zipWith (fun a b : ℚ => a + b) row noise ≠ [] := by
        rw [hnz]; exact List.cons_ne_nil v vs
      simp only [predictRow]
      exact percentile_mono _ hne _ _ hql0 (by linarith) hqh100
  · intro hz
    simp only [predictRow, hz]
    exact ⟨percentile_mono row hrow _ _ hql0 hql50 (by norm_num),
      percentile_mono row hrow _ _ (by norm_num) hqh50 hqh100⟩

/-- C9: two forecast runs over the same posterior mean-sample matrix that
differ only in the injected observation-noise draws produce identical
point-estimate (`y_hat`) columns: the point estimate is computed from the
noiseless samples only; only `y_high`/`y_low` involve the noise. -/
theorem predictRow_fst (row noise : List ℚ) (alpha : ℚ) :
    (predictRow row noise alpha).1 = percentile row 50 := rfl

theorem point_estimates_ignore_noise (yhat : List (List ℚ))
    (noise1 noise2 : List ℚ) (alpha : ℚ) :
    (predictFrame yhat noise1 alpha).map (fun r => r.1) =
      (predictFrame yhat noise2 alpha).map (fun r => r.1) := by
  simp only [predictFrame, List.map_map, Function.comp_def, predictRow_fst]

theorem futureDates_eq (last : ℚ) (n : ℕ) (step : ℚ) (hstep : 0 < step) :
    futureDates last n step =
      (List.range' 1 n).map (fun (k : ℕ) => last + (k : ℚ) * step) := by
  unfold futureDates
  rw [List.range_eq_range', List.range'_succ, List.map_cons, List.filter_cons]
  have h0 : (decide (last < last + ((0:ℕ) : ℚ) * step)) = false := by
    simp
  rw [h0]
  have hall : ∀ d ∈ (List.range' 1 n).map (fun (k : ℕ) => last + (k : ℚ) * step),
      decide (last < d) = true := by
    intro d hd
    obtain ⟨k, hk, rfl⟩ := List.mem_map.mp hd
    have hk1 : 1 ≤ k := (List.mem_range'_1.mp hk).1
    have hkq : (0:ℚ) < (k : ℚ) := by exact_mod_cast hk1
    simp only [decide_eq_true_eq]
    nlinarith
  rw [List.filter_eq_self.mpr hall]
  apply List.take_of_length_le
  simp

/-- C6: for a positive horizon `n` and positive step, the forecast axis
contains exactly `n` future timestamps, each strictly after the last
observed timestamp, and when history is included the axis is exactly the
historical timestamps followed by those `n` future ones (the output frame
has one row per axis position). -/
theorem predict_axis_correct (ds : List ℚ) (n : ℕ) (step : ℚ)
    (hn : 0 < n) (hstep : 0 < step) :
    (futureDates (dsMax ds) n step).length = n ∧
    (∀ d ∈ futureDates (dsMax ds) n step, dsMax ds < d) ∧
    predictAxis ds n step true = ds ++ futureDates (dsMax ds) n step ∧
    (predictAxis ds n step true).length = ds.length + n ∧
    predictAxis ds n step false = futureDates (dsMax ds) n step := by
  have he := futureDates_eq (dsMax ds) n step hstep
  refine ⟨?_, ?_, rfl, ?_, rfl⟩
  · rw [he]; simp
  · intro d hd
    rw [he] at hd
    obtain ⟨k, hk, rfl⟩ := List.mem_map.mp hd
    have hk1 : 1 ≤ k := (List.mem_range'_1.mp hk).1
    have hkq : (0:ℚ) < (k : ℚ) := by exact_mod_cast hk1
    nlinarith
  · simp [predictAxis, he]

theorem digitVal_digitChar : ∀ d, d < 10 → digitVal (digitChar d) = d := by decide

theorem isDigitChar_digitChar : ∀ d, d < 10 → isDigitChar (digitChar d) = true := by
  decide

theorem digitChar_ne_underscore : ∀ d, d < 10 → digitChar d ≠ '_' := by decide

theorem foldr_digits_eq_ofDigits (L : List ℕ) :
    L.foldr (fun d a => a * 10 + d) 0 = Nat.ofDigits 10 L := by
  induction L with
  | nil => simp [Nat.ofDigits_nil]
  | cons d L ih =>
    rw [List.foldr_cons, Nat.ofDigits_cons, ih]
    ring

theorem foldr_digitVal (L : List ℕ) (hL : ∀ d ∈ L, d < 10) :
    L.foldr (fun d a => a * 10 + digitVal (digitChar d)) 0 =
      L.foldr (fun d a => a * 10 + d) 0 := by
  induction L with
  | nil => rfl
  | cons d L ih =>
    simp only [List.foldr_cons]
    rw [ih (fun x hx => hL x (List.mem_cons_of_mem d hx)),
      digitVal_digitChar d (hL d (List.mem_cons_self d L))]

theorem parseNat_natRepr (n : ℕ) : parseNat (natRepr n) = some n := by
  by_cases h : n = 0
  · subst h; decide
  · have hdig : ∀ d ∈ Nat.digits 10 n, d < 10 :=
      fun d hd => Nat.digits_lt_base (by norm_num) hd
    have hne : Nat.digits 10 n ≠ [] := Nat.digits_ne_nil_iff_ne_zero.mpr h
    unfold natRepr parseNat
    rw [if_neg h, if_pos]
    · congr 1
      rw [List.foldl_map, List.foldl_reverse]
      have hfold : (Nat.digits 10 n).foldr (fun x a => a * 10 + digitVal (digitChar x)) 0 =
          (Nat.digits 10 n).foldr (fun d a => a * 10 + d) 0 := foldr_digitVal _ hdig
      rw [hfold, foldr_digits_eq_ofDigits]
      exact_mod_cast Nat.ofDigits_digits 10 n
    · constructor
      · simp [hne]
      · rw [List.all_eq_true]
        intro c hc
        rw [List.mem_map] at hc
        obtain ⟨d, hd, rfl⟩ := hc
        exact isDigitChar_digitChar d (hdig d (List.mem_reverse.mp hd))

theorem splitOnChar_cons (sep c : Char) (rest : List Char) :
    splitOnChar sep (c :: rest) =
      match splitOnChar sep rest with
      | [] => [[c]]
      | g :: gs => if c = sep then [] :: g :: gs else (c :: g) :: gs := rfl

theorem splitOnChar_ne_nil (sep : Char) (l : List Char) : splitOnChar sep l ≠ [] := by
  cases l with
  | nil => simp [splitOnChar]
  | cons c rest =>
    rw [splitOnChar_cons]
    rcases h : splitOnChar sep rest with _ | ⟨g, gs⟩
    · simp
    · by_cases hc : c = sep <;> simp [hc]

theorem splitOnChar_no_sep (sep : Char) (l : List Char) (h : sep ∉ l) :
    splitOnChar sep l = [l] := by
  induction l with
  | nil => rfl
  | cons c rest ih =>
    have hcs : c ≠ sep := fun he => h (he ▸ List.mem_cons_self c rest)
    have hrest : sep ∉ rest := fun hm => h (List.mem_cons_of_mem c hm)
    rw [splitOnChar_cons, ih hrest]
    simp [hcs]

theorem splitOnChar_append (sep : Char) (p q : List Char) (hp : sep ∉ p) :
    splitOnChar sep (p ++ sep :: q) = p :: splitOnChar sep q := by
  induction p with
  | nil =>
    simp only [List.nil_append]
    rw [splitOnChar_cons]
    rcases h : splitOnChar sep q with _ | ⟨g, gs⟩
    · exact absurd h (splitOnChar_ne_nil sep q)
    · simp [h]
  | cons c p ih =>
    have hcs : c ≠ sep := fun he => hp (he ▸ List.mem_cons_self c p)
    have hps : sep ∉ p := fun hm => hp (List.mem_cons_of_mem c hm)
    simp only [List.cons_append]
    rw [splitOnChar_cons, ih hps]
    simp [hcs]

theorem mem_splitOnChar (sep : Char) (l : List Char) (c : Char)
    (hc : c ∈ l) (hcs : c ≠ sep) : ∃ g ∈ splitOnChar sep l, c ∈ g := by
  induction l with
  | nil => cases hc
  | cons x rest ih =>
    rcases List.mem_cons.mp hc with rfl | hmem
    · rcases h : splitOnChar sep rest with _ | ⟨g, gs⟩
      · exact absurd h (splitOnChar_ne_nil sep rest)
      · refine ⟨c :: g, ?_, List.mem_cons_self c g⟩
        rw [splitOnChar_cons, h]
        simp [hcs]
    · obtain ⟨g0, hg0, hcg0⟩ := ih hmem
      rcases h : splitOnChar sep rest with _ | ⟨g, gs⟩
      · exact absurd h (splitOnChar_ne_nil sep rest)
      · rw [h] at hg0
        rw [splitOnChar_cons, h]
        dsimp only
        by_cases hx : x = sep
        · rw [if_pos hx]
          exact ⟨g0, List.mem_cons_of_mem _ hg0, hcg0⟩
        · rw [if_neg hx]
          rcases List.mem_cons.mp hg0 with rfl | hgs
          · exact ⟨x :: g0, List.mem_cons_self _ _, List.mem_cons_of_mem x hcg0⟩
          · exact ⟨g0, List.mem_cons_of_mem _ hgs, hcg0⟩

theorem parseNat_digits (cs : List Char) (v : ℕ) (h : parseNat cs = some v) :
    cs.all isDigitChar = true := by
  unfold parseNat at h
  by_cases hc : cs ≠ [] ∧ cs.all isDigitChar
  · exact hc.2
  · rw [if_neg hc] at h
    cases h

theorem pyFloat_no_underscore (cs : List Char) (P : ℚ) (h : pyFloat cs = some P) :
    ('_' : Char) ∉ cs := by
  intro hmem
  obtain ⟨g, hg, hcg⟩ := mem_splitOnChar '.' cs '_' hmem (by decide)
  have hdig : g.all isDigitChar = true := by
    unfold pyFloat at h
    rcases hsp : splitOnChar '.' cs with _ | ⟨a, rest⟩
    · rw [hsp] at h; cases h
    · rcases rest with _ | ⟨b, rest2⟩
      · rw [hsp] at h hg
        dsimp only at h
        rcases hpa : parseNat a with _ | v
        · rw [hpa] at h; simp at h
        · have hga : g = a := by simpa using hg
          subst hga
          exact parseNat_digits g v hpa
      · rcases rest2 with _ | _
        · rw [hsp] at h hg
          dsimp only at h
          rcases hpa : parseNat a with _ | v
          · rw [hpa] at h; simp at h
          · rcases hpb : parseNat b with _ | w
            · rw [hpa, hpb] at h; simp at h
            · rcases List.mem_cons.mp hg with rfl | hgb
              · exact parseNat_digits g v hpa
              · have hgb2 : g = b := by simpa using hgb
                subst hgb2
                exact parseNat_digits g w hpb
        · rw [hsp] at h
          dsimp only at h
          cases h
  rw [List.all_eq_true] at hdig
  have := hdig '_' hcg
  simp [isDigitChar] at this

theorem natRepr_no_underscore (n : ℕ) : ('_' : Char) ∉ natRepr n := by
  unfold natRepr
  by_cases h : n = 0
  · rw [if_pos h]; decide
  · rw [if_neg h]
    intro hm
    rw [List.mem_map] at hm
    obtain ⟨d, hd, hdc⟩ := hm
    exact digitChar_ne_underscore d
      (Nat.digits_lt_base (by norm_num) (List.mem_reverse.mp hd)) hdc

theorem reconStep_season (groups : List (List Char × List ℕ)) (p : List Char)
    (hp : ('_' : Char) ∉ p) (idx : ℕ) :
    reconStep groups (seasonColName p idx) = addOrder groups p idx := by
  unfold reconStep seasonColName
  rw [if_pos (by simp)]
  rw [show ('f' :: '_' :: (p ++ '_' :: natRepr idx)).drop 2 = p ++ '_' :: natRepr idx
    from rfl]
  rw [splitOnChar_append '_' p (natRepr idx) hp,
    splitOnChar_no_sep '_' (natRepr idx) (natRepr_no_underscore idx)]
  dsimp only
  rw [parseNat_natRepr]

theorem foldl_reconStep_skip (cols0 : List (List Char))
    (h0 : ∀ c ∈ cols0, c.take 2 ≠ ['f', '_']) (groups : List (List Char × List ℕ)) :
    cols0.foldl reconStep groups = groups := by
  induction cols0 generalizing groups with
  | nil => rfl
  | cons c cols ih =>
    rw [List.foldl_cons]
    have hstep : reconStep groups c = groups := by
      unfold reconStep
      rw [if_neg (h0 c (List.mem_cons_self c cols))]
    rw [hstep]
    exact ih (fun d hd => h0 d (List.mem_cons_of_mem c hd)) groups

theorem foldl_season_names (p : List Char) (hp : ('_' : Char) ∉ p) :
    ∀ k : ℕ, ((List.range k).map (seasonColName p)).foldl reconStep [] =
      if k = 0 then [] else [(p, List.range k)] := by
  intro k
  induction k with
  | zero => rfl
  | succ m ih =>
    rw [List.range_succ, List.map_append, List.foldl_append, ih]
    by_cases hm : m = 0
    · subst hm
      simp [reconStep_season _ p hp 0, addOrder]
    · rw [if_neg hm, if_neg (Nat.succ_ne_zero m)]
      simp only [List.map_cons, List.map_nil, List.foldl_cons, List.foldl_nil]
      rw [reconStep_season _ p hp m]
      unfold addOrder
      rw [if_pos rfl]

theorem foldl_max_range (k : ℕ) (hk : 1 ≤ k) :
    (List.range k).foldl max 0 = k - 1 := by
  induction k with
  | zero => omega
  | succ m ih =>
    rw [List.range_succ, List.foldl_append]
    by_cases hm : m = 0
    · subst hm; rfl
    · rw [ih (by omega)]
      simp only [List.foldl_cons, List.foldl_nil]
      omega

/-- C8: adding a seasonality of order `K ≥ 1` for a period whose rendered
string parses back to the rational `P` (as `float(str(P))` does), and then
reconstructing the `(period, order)` pairs from the stored feature-column
names the way `predict` does, yields exactly one pair: the period parses
back to `P` and the reconstructed order count is `K` (hence at least `K`);
the base columns of the frame (none of which are `f_`-prefixed) contribute
nothing. -/
theorem seasonality_roundtrip (cols0 : List (List Char)) (p : List Char)
    (P : ℚ) (k : ℕ) (hp : pyFloat p = some P) (hk : 1 ≤ k)
    (h0 : ∀ c ∈ cols0, c.take 2 ≠ ['f', '_']) :
    reconstructedPairs (addSeasonalityNames cols0 p k) = [(some P, k)] := by
  have hpu : ('_' : Char) ∉ p := pyFloat_no_underscore p P hp
  unfold reconstructedPairs reconstructPeriods addSeasonalityNames
  rw [List.foldl_append, foldl_reconStep_skip cols0 h0, foldl_season_names p hpu k,
    if_neg (by omega : k ≠ 0)]
  rw [List.map_cons, List.map_nil]
  dsimp only
  rw [hp, foldl_max_range k hk]
  congr 2
  omega

theorem runOps_getElem?_ne (ref j : ℕ) (hne : ref ≠ j) :
    ∀ (ops : List FeatureOp) (st : List DFrame), (runOps st ref ops)[j]? = st[j]? := by
  intro ops
  induction ops with
  | nil => intro st; rfl
  | cons op ops ih =>
    intro st
    unfold runOps at ih ⊢
    rw [List.foldl_cons, ih]
    unfold applyOpStore
    exact List.getElem?_set_ne hne

/-- C10: the constructor operates on a private copy of the supplied frame,
so constructing a model on the caller's frame and then applying any
sequence of seasonality/holiday/regressor feature additions leaves the
caller's original frame unchanged in the store. -/
theorem constructor_copies_data (store : List DFrame) (j : ℕ)
    (ops : List FeatureOp) (hj : j < store.length) :
    (runOps (pmConstructData store j).1 (pmConstructData store j).2 ops)[j]? =
      store[j]? := by
  rw [runOps_getElem?_ne (pmConstructData store j).2 j (by simp [pmConstructData]; omega)]
  unfold pmConstructData
  rw [List.getElem?_append]
  simp [hj]

theorem constructor_copies_data_witness :
    0 < ([(default : DFrame)]).length ∧
      (runOps (pmConstructData [(default : DFrame)] 0).1
          (pmConstructData [(default : DFrame)] 0).2
          [FeatureOp.regressor ['r'] none])[0]? = [(default : DFrame)][0]? :=
  ⟨by decide, constructor_copies_data [default] 0 [FeatureOp.regressor ['r'] none]
    (by decide)⟩

section KernelEval

/- Concrete evaluations: the rational arithmetic operations are restored to
their default reducibility so that `decide` can evaluate them. -/

attribute [local semireducible] Rat.add Rat.sub Rat.mul Rat.inv

set_option maxRecDepth 1000000

theorem growth_empty_changepoints_witness :
    1 < ([(5:ℚ), 6]).length ∧
      (fitGrowthPrior [(5:ℚ), 6] [] 3 (fun _ => 0) 1 = 3 * ((1:ℕ) : ℚ) ∧
        fitGrowthPost [(5:ℚ), 6] [] (fun _ => 2) (fun _ _ => 0) 1 0 = 2 * ((1:ℕ) : ℚ)) :=
  ⟨by decide, growth_empty_changepoints [5, 6] 3 (fun _ => 0) (fun _ => 2)
    (fun _ _ => 0) 1 0 (by decide)⟩

/-- C1 counterexample: in the end-to-end scenario (100-day series, one
changepoint anchored at index 50, base rate 1, offset 0.5, a single
posterior draw, forecasting 10 days with history included) the trend value
produced by `fit_growth` at position 109 is NOT
`1.0*109 + (1.0+0.5)*(109-50)`: the code drops the global base-rate term
`rate * x` as soon as the changepoint list is non-empty. -/
theorem growth_scenario_deviates_from_claim :
    fitGrowthPost scenarioDs [50] (fun _ => 1) (fun _ _ => 1/2) 109 0 ≠
      1 * 109 + (1 + 1/2) * (109 - 50) := by
  decide

/-- C1 amended: in the end-to-end scenario the trend value at position 109
equals `(1.0+0.5)*(109-50)` only: with a non-empty Changepoint Set the
total growth is the sum of the segment contributions for segments `i ≥ 1`
(`(rate + offset_{i-1}) * (x - s_{i-1}) * 1[x > s_{i-1}]`), segment 0
contributing zero, so the global `base_rate * x` term is not reproduced. -/
theorem growth_scenario_value :
    fitGrowthPost scenarioDs [50] (fun _ => 1) (fun _ _ => 1/2) 109 0 =
      (1 + 1/2) * (109 - 50) := by
  decide

/-- C5 counterexample: with a single posterior draw whose noiseless mean
sample is 0, a noise draw of +1 and α = 0.05, `y_low` (a percentile of the
noised samples) exceeds `y_hat` (a percentile of the noiseless samples):
the claimed chain `lower ≤ point estimate` fails. -/
theorem interval_bounds_deviate_from_claim :
    ¬ ((predictRow [0] [1] (1/20)).2.2 ≤ (predictRow [0] [1] (1/20)).1) := by
  decide

theorem interval_bounds_ordered_witness :
    ((0:ℚ) < 1/20 ∧ (1:ℚ)/20 < 1 ∧ ([(1:ℚ), 3]) ≠ []) ∧
      (predictRow [(1:ℚ), 3] [0, 0] (1/20)).2.2 ≤
        (predictRow [(1:ℚ), 3] [0, 0] (1/20)).2.1 :=
  ⟨⟨by decide, by decide, by decide⟩,
    (interval_bounds_ordered [1, 3] [0, 0] (1/20) (by decide) (by decide)
      (by decide)).1⟩

theorem predict_axis_correct_witness :
    ((0:ℕ) < 2 ∧ (0:ℚ) < 1) ∧ (futureDates (dsMax [(0:ℚ), 1]) 2 1).length = 2 :=
  ⟨⟨by decide, by decide⟩, (predict_axis_correct [0, 1] 2 1 (by decide) (by decide)).1⟩

theorem seasonality_roundtrip_witness :
    (pyFloat ['7', '.', '5'] = some (15/2) ∧ 1 ≤ 3 ∧
        (∀ c ∈ [['y'], ['d', 's']], c.take 2 ≠ ['f', '_'])) ∧
      reconstructedPairs (addSeasonalityNames [['y'], ['d', 's']] ['7', '.', '5'] 3) =
        [(some (15/2), 3)] :=
  ⟨⟨by decide, by decide, by decide⟩,
    seasonality_roundtrip [['y'], ['d', 's']] ['7', '.', '5'] (15/2) 3
      (by decide) (by decide) (by decide)⟩

end KernelEval

end PMProphet
